import Mathlib

/-!
Formal model of the graph-construction, path-enumeration, scoring and
selection core of the notebook `map_creating&selection.ipynb`.

Node identities of the in-memory graph are modelled as natural numbers
(opaque comparable keys with the total order used by Python's `sorted`);
the raw input records of the graph builder keep their concrete `String`
member names.  Machine integers of the source are plain `Nat` counters
(no overflow is possible: they only ever grow by 1).  The only fallible
operation of the source is `compute_group_score`, which raises `KeyError`
when a group member is absent from the graph; it is embedded as an
`Option`-returning function, `none` standing for the raised exception,
and `find_max_group` propagates that failure like the Python call stack
does.
-/

/-- Weighted undirected graph as the notebook uses it through `networkx`:
a node list (in insertion order), the `has_edge` adjacency test, the node
attribute `weight` (`G.nodes[v]['weight']`, read with default 0) and the
edge attribute `weight` (`G[u][v]['weight']`, read with default 0). -/
structure Graph where
  nodes : List Nat
  adj : Nat → Nat → Bool
  weight : Nat → Nat
  edgeW : Nat → Nat → Nat

/-- Neighbor iteration `G.neighbors(u)`: the nodes adjacent to `u`, in the
graph's fixed node order. -/
def neighbors (nodes : List Nat) (adjB : Nat → Nat → Bool) (u : Nat) : List Nat :=
  nodes.filter (fun v => adjB u v)

/-- State threaded through the DFS of `precompute_unique_paths`: the
`unique_paths` set of canonical (sorted) tuples already seen, and the
`all_paths` output list, in discovery order. -/
structure DfsState where
  unique_paths : List (List Nat)
  all_paths : List (List Nat)
deriving DecidableEq

/-- Canonical form of a path: its node list sorted, the embedding of
`tuple(sorted(path))`. -/
def canon (p : List Nat) : List Nat := p.insertionSort (· ≤ ·)

/-- Inner `dfs` of `precompute_unique_paths`.  When the current path has
the desired length its canonical form is recorded unless already seen;
otherwise every neighbor of `current` that is not yet on the path is
appended and explored.  The extra `fuel` argument only bounds the
recursion depth for Lean's termination checker; the top-level call hands
it more fuel than any simple path can consume, so it never runs out on
the runs the source performs (a simple path holds pairwise-distinct
nodes of the graph, hence has length at most `nodes.length`). -/
def dfs (nodes : List Nat) (adjB : Nat → Nat → Bool) (k : Nat) :
    Nat → Nat → List Nat → DfsState → DfsState
  | 0, _, _, st => st
  | fuel+1, current, path, st =>
    if path.length = k then
      if canon path ∈ st.unique_paths then st
      else ⟨canon path :: st.unique_paths, st.all_paths ++ [path]⟩
    else
      (neighbors nodes adjB current).foldl
        (fun st' nb => if nb ∈ path then st'
          else dfs nodes adjB k fuel nb (path ++ [nb]) st') st

/-- Embedding of `precompute_unique_paths(G, desired_length=k)`: run the
DFS from every node of the graph and return the recorded paths. -/
def precompute_unique_paths (G : Graph) (k : Nat) : List (List Nat) :=
  (G.nodes.foldl
    (fun st s => dfs G.nodes G.adj k (G.nodes.length + k + 1) s [s] st)
    ⟨[], []⟩).all_paths

/-- Embedding of `itertools.combinations(l, 2)`: all pairs of elements of
`l` taken at two distinct positions, in the source order. -/
def combinations2 {α : Type} : List α → List (α × α)
  | [] => []
  | x :: xs => (xs.map fun y => (x, y)) ++ combinations2 xs

/-- Embedding of `compute_group_score(G, group)`.  The node sum reads
`G.nodes[node].get('weight', 0)`, which raises `KeyError` (modelled as
`none`) when a member is not a node of the graph; the edge sum adds
`G[u][v]['weight']` over every pair of members joined by an edge. -/
def compute_group_score (G : Graph) (group : List Nat) : Option Nat :=
  if group.all (fun v => decide (v ∈ G.nodes)) then
    some ((group.map G.weight).sum +
      ((combinations2 group).map
        (fun uv => if G.adj uv.1 uv.2 then G.edgeW uv.1 uv.2 else 0)).sum)
  else none

/-- Loop of `find_max_group`: fold over the remaining groups carrying
`best_group` and `best_score` (both `None` before the first iteration),
replacing them only on a strictly larger score.  A scoring failure
(`KeyError`) aborts the whole computation, as the Python exception
would. -/
def find_max_aux (G : Graph) :
    List (List Nat) → Option (List Nat) → Option Nat →
    Option (Option (List Nat) × Option Nat)
  | [], bg, bs => some (bg, bs)
  | g :: gs, bg, bs =>
    match compute_group_score G g with
    | none => none
    | some score =>
      match bs with
      | none => find_max_aux G gs (some g) (some score)
      | some bsc =>
        if bsc < score then find_max_aux G gs (some g) (some score)
        else find_max_aux G gs bg bs

/-- Embedding of `find_max_group(G, groups)`: returns
`(best_group, best_score)`, both `None` when `groups` is empty. -/
def find_max_group (G : Graph) (groups : List (List Nat)) :
    Option (Option (List Nat) × Option Nat) :=
  find_max_aux G groups none none

/-- Embedding of `query_paths_with_node(path_library, query_node)`. -/
def query_paths_with_node (path_library : List (List Nat)) (query_node : Nat) :
    List (List Nat) :=
  path_library.filter (fun path => decide (query_node ∈ path))

/-- Raw input of the graph builder: the rows of the spreadsheet, each a
`(group key, member name)` pair, the group key standing for the
`(Season, Team)` pair that `groupby` partitions on. -/
abbrev Records := List (Nat × String)

/-- Player column of the input, `df['Player']`. -/
def rowPlayers (records : Records) : List String := records.map Prod.snd

/-- Embedding of `df['Player'].value_counts().to_dict()`: the node weight
attached to each player is the number of rows naming that player. -/
def player_championships (records : Records) (p : String) : Nat :=
  (rowPlayers records).count p

/-- Distinct group keys of the input, each one corresponding to one
championship roster produced by `df.groupby(["Season", "Team"])`.
First-occurrence deduplication; no claim depends on the key order. -/
def dedupKeep {α : Type} [DecidableEq α] : List α → List α → List α
  | [], _ => []
  | x :: xs, seen =>
    if x ∈ seen then dedupKeep xs seen else x :: dedupKeep xs (x :: seen)

/-- Group keys present in the input, in first-occurrence order. -/
def groupKeys (records : Records) : List Nat :=
  dedupKeep (records.map Prod.fst) []

/-- Member list of one group, `group["Player"].tolist()`: the raw rows of
that group, duplicates included. -/
def groupMembers (records : Records) (k : Nat) : List String :=
  (records.filter (fun r => decide (r.1 = k))).map Prod.snd

/-- Node set of the built graph: one node per distinct player
(`G.add_node(player, ...)` over the keys of `value_counts`).  The key
order of `value_counts` (count-descending) is irrelevant to every
property below, so first-occurrence order is used. -/
def builderNodes (records : Records) : List String :=
  dedupKeep (rowPlayers records) []

/-- Code-point comparison standing for Python's `<=` on strings, used
only to embed `sorted(players)`; the resulting edge weights do not
depend on it because edge updates are symmetric. -/
def strLeB : List Char → List Char → Bool
  | [], _ => true
  | _ :: _, [] => false
  | x :: xs, y :: ys =>
    if x.toNat < y.toNat then true
    else if y.toNat < x.toNat then false
    else strLeB xs ys

/-- Insertion step of the embedded `sorted`. -/
def insertLe (le : String → String → Bool) (x : String) :
    List String → List String
  | [] => [x]
  | y :: ys => if le x y then x :: y :: ys else y :: insertLe le x ys

/-- Embedding of Python's `sorted` on the member lists. -/
def sortStr : List String → List String
  | [] => []
  | x :: xs => insertLe (fun a b => strLeB a.data b.data) x (sortStr xs)

/-- One `add_edge` / weight increment: after processing the pair
`(p, q)`, the weight stored for the unordered pair `{p, q}` is one
larger (the map is kept symmetric, as `networkx` adjacency is). -/
def bump (ew : String → String → Nat) (p q : String) : String → String → Nat :=
  fun a b => if (a = p ∧ b = q) ∨ (a = q ∧ b = p) then ew a b + 1 else ew a b

/-- Edge loop body for one roster: iterate
`itertools.combinations(sorted(players), 2)` and increment each pair's
edge weight. -/
def add_group_edges (ew : String → String → Nat) (players : List String) :
    String → String → Nat :=
  (combinations2 (sortStr players)).foldl (fun e pq => bump e pq.1 pq.2) ew

/-- Edge weights of the built graph: fold the edge loop over every
roster; absent edges carry weight 0 (`add_edge` creates an edge with
weight 1 on first co-occurrence and increments it afterwards, so an edge
exists exactly when its weight is positive). -/
def build_edge_weight (records : Records) : String → String → Nat :=
  (groupKeys records).foldl
    (fun e k => add_group_edges e (groupMembers records k)) (fun _ _ => 0)

/-- Concrete five-node scenario: nodes A..E are 0..4 with weights
3,2,2,1,1 and edges A-B(2), A-C(1), B-C(1), C-D(1), D-E(1). -/
def specEdges : List (Nat × Nat × Nat) :=
  [(0, 1, 2), (0, 2, 1), (1, 2, 1), (2, 3, 1), (3, 4, 1)]

/-- Edge weight lookup of the concrete scenario. -/
def specEW (u v : Nat) : Nat :=
  ((specEdges.filter
    (fun e => (e.1 == u && e.2.1 == v) || (e.1 == v && e.2.1 == u))).map
      (fun e => e.2.2)).sum

/-- Node weights of the concrete scenario. -/
def specW (v : Nat) : Nat :=
  if v = 0 then 3 else if v = 1 then 2 else if v = 2 then 2
  else if v ≤ 4 then 1 else 0

/-- The concrete scenario graph of the specification. -/
def specG : Graph :=
  ⟨[0, 1, 2, 3, 4], fun u v => decide (specEW u v ≠ 0), specW, specEW⟩

example : compute_group_score specG [0, 1, 2] = some 11 := by decide
example : compute_group_score specG [2, 3, 4] = some 6 := by decide
example : find_max_group specG [[0, 1, 2], [2, 3, 4]] =
    some (some [0, 1, 2], some 11) := by decide
example : build_edge_weight [(0, "a"), (0, "a")] "a" "a" = 1 := by decide
example : build_edge_weight [(0, "a"), (0, "a"), (0, "b")] "a" "b" = 2 := by decide
example : builderNodes [(0, "")] = [""] := by decide
example : player_championships [(0, "a"), (0, "a")] "a" = 2 := by decide
example : precompute_unique_paths specG 5 = [[0, 1, 2, 3, 4]] := by decide
example : precompute_unique_paths specG 0 = [] := by decide
example : precompute_unique_paths specG 1 = [[0], [1], [2], [3], [4]] := by decide
example : precompute_unique_paths specG 6 = [] := by decide
example : (precompute_unique_paths specG 3).length = 4 := by decide

/-- Success shape of the scorer when every member is a node. -/
lemma compute_group_score_of_mem (G : Graph) (group : List Nat)
    (h : ∀ v ∈ group, v ∈ G.nodes) :
    compute_group_score G group =
      some ((group.map G.weight).sum +
        ((combinations2 group).map
          (fun uv => if G.adj uv.1 uv.2 then G.edgeW uv.1 uv.2 else 0)).sum) := by
  unfold compute_group_score
  rw [if_pos]
  simpa [List.all_eq_true] using h

/-- Scorer succeeds with some value when every member is a node. -/
lemma compute_group_score_isSome (G : Graph) (group : List Nat)
    (h : ∀ v ∈ group, v ∈ G.nodes) :
    ∃ s, compute_group_score G group = some s :=
  ⟨_, compute_group_score_of_mem G group h⟩

/-- Behavior of the selection fold from an already-seeded best pair:
it succeeds, its score bound dominates every candidate, and the winner
is either the seed (when nothing strictly beats it) or the first
candidate that strictly beats both the seed and everything before it. -/
lemma find_max_aux_spec (G : Graph) :
    ∀ (gs : List (List Nat)), (∀ g ∈ gs, ∀ v ∈ g, v ∈ G.nodes) →
    ∀ (b0 : List Nat) (s0 : Nat),
      ∃ g s, find_max_aux G gs (some b0) (some s0) = some (some g, some s) ∧
        (∀ g' ∈ gs, ∀ s', compute_group_score G g' = some s' → s' ≤ s) ∧
        ((g = b0 ∧ s = s0) ∨
          (∃ pre post, gs = pre ++ g :: post ∧
            compute_group_score G g = some s ∧ s0 < s ∧
            (∀ g' ∈ pre, ∀ s', compute_group_score G g' = some s' → s' < s))) := by
  intro gs
  induction gs with
  | nil =>
    intro _ b0 s0
    exact ⟨b0, s0, rfl, by simp, Or.inl ⟨rfl, rfl⟩⟩
  | cons g1 rest ih =>
    intro h b0 s0
    obtain ⟨s1, hs1⟩ := compute_group_score_isSome G g1
      (h g1 (List.mem_cons_self g1 rest))
    have hrest : ∀ g ∈ rest, ∀ v ∈ g, v ∈ G.nodes :=
      fun g hg => h g (List.mem_cons_of_mem _ hg)
    by_cases hlt : s0 < s1
    · obtain ⟨g, s, heq, hmax, hcase⟩ := ih hrest g1 s1
      have hs1s : s1 ≤ s := by
        rcases hcase with ⟨_, hss⟩ | ⟨_, _, _, _, hss, _⟩
        · omega
        · omega
      refine ⟨g, s, ?_, ?_, ?_⟩
      · simp only [find_max_aux, hs1, if_pos hlt]
        exact heq
      · intro g' hg' s' hsc
        rcases List.mem_cons.mp hg' with hh | hh
        · subst hh; rw [hs1] at hsc; have := Option.some.inj hsc; omega
        · exact hmax g' hh s' hsc
      · rcases hcase with ⟨hg, hss⟩ | ⟨pre, post, hdec, hscg, hlt', hpre⟩
        · subst hg; subst hss
          exact Or.inr ⟨[], rest, rfl, hs1, hlt, by simp⟩
        · refine Or.inr ⟨g1 :: pre, post, by rw [hdec]; rfl, hscg, by omega, ?_⟩
          intro g' hg' s' hsc
          rcases List.mem_cons.mp hg' with hh | hh
          · subst hh; rw [hs1] at hsc; have := Option.some.inj hsc; omega
          · exact hpre g' hh s' hsc
    · obtain ⟨g, s, heq, hmax, hcase⟩ := ih hrest b0 s0
      have hs0s : s0 ≤ s := by
        rcases hcase with ⟨_, hss⟩ | ⟨_, _, _, _, hss, _⟩
        · omega
        · omega
      refine ⟨g, s, ?_, ?_, ?_⟩
      · simp only [find_max_aux, hs1, if_neg hlt]
        exact heq
      · intro g' hg' s' hsc
        rcases List.mem_cons.mp hg' with hh | hh
        · subst hh; rw [hs1] at hsc; have := Option.some.inj hsc; omega
        · exact hmax g' hh s' hsc
      · rcases hcase with hl | ⟨pre, post, hdec, hscg, hlt', hpre⟩
        · exact Or.inl hl
        · refine Or.inr ⟨g1 :: pre, post, by rw [hdec]; rfl, hscg, by omega, ?_⟩
          intro g' hg' s' hsc
          rcases List.mem_cons.mp hg' with hh | hh
          · subst hh; rw [hs1] at hsc; have := Option.some.inj hsc; omega
          · exact hpre g' hh s' hsc

/-- C8: scoring a group fails (the `KeyError` of `G.nodes[node]`,
abstracted as the spec's `UnknownNodeError`) exactly when the group has
a member that is not a node of the graph; it never fails otherwise. -/
theorem claim_C8_unknown_node (G : Graph) (group : List Nat) :
    compute_group_score G group = none ↔ ∃ v ∈ group, v ∉ G.nodes := by
  by_cases h : ∀ v ∈ group, v ∈ G.nodes
  · rw [compute_group_score_of_mem G group h]
    constructor
    · intro hc; cases hc
    · rintro ⟨v, hv, hnv⟩; exact absurd (h v hv) hnv
  · push_neg at h
    constructor
    · intro _; exact h
    · intro _
      unfold compute_group_score
      rw [if_neg]
      intro hall
      obtain ⟨v, hv, hnv⟩ := h
      have := List.all_eq_true.mp hall v hv
      exact hnv (of_decide_eq_true this)

/-- C9: enumeration reads only the node list and the adjacency relation,
both iterated in the graph's fixed stored order, so two runs over graphs
that agree on them (in particular two runs over the same graph) return
identical path libraries: same groups, same order, same representative
orderings. -/
theorem claim_C9_deterministic (G₁ G₂ : Graph) (k : Nat)
    (h1 : G₁.nodes = G₂.nodes) (h2 : G₁.adj = G₂.adj) :
    precompute_unique_paths G₁ k = precompute_unique_paths G₂ k := by
  unfold precompute_unique_paths
  rw [h1, h2]

/-- Scenario graph with the weights forgotten; enumeration cannot see
the difference. -/
def specGUnweighted : Graph :=
  ⟨[0, 1, 2, 3, 4], specG.adj, fun _ => 0, fun _ _ => 0⟩

/-- Witness for C9 at the concrete scenario graph. -/
theorem claim_C9_deterministic_witness :
    precompute_unique_paths specG 3 = precompute_unique_paths specGUnweighted 3 :=
  claim_C9_deterministic specG specGUnweighted 3 rfl rfl

/-- C3: on a non-empty candidate sequence whose groups consist of graph
nodes, `find_max_group` (the spec's `select_best`) returns a candidate
whose score bounds every candidate's score, and every candidate placed
before the returned one scores strictly less — so on ties the first
group in input order wins. -/
theorem claim_C3_select_best (G : Graph) (groups : List (List Nat))
    (h : ∀ g ∈ groups, ∀ v ∈ g, v ∈ G.nodes) (hne : groups ≠ []) :
    ∃ g s pre post,
      find_max_group G groups = some (some g, some s) ∧
      groups = pre ++ g :: post ∧
      compute_group_score G g = some s ∧
      (∀ g' ∈ groups, ∀ s', compute_group_score G g' = some s' → s' ≤ s) ∧
      (∀ g' ∈ pre, ∀ s', compute_group_score G g' = some s' → s' < s) := by
  match groups with
  | [] => exact absurd rfl hne
  | g1 :: rest =>
    obtain ⟨s1, hs1⟩ := compute_group_score_isSome G g1
      (h g1 (List.mem_cons_self g1 rest))
    have hrest : ∀ g ∈ rest, ∀ v ∈ g, v ∈ G.nodes :=
      fun g hg => h g (List.mem_cons_of_mem _ hg)
    obtain ⟨g, s, heq, hmax, hcase⟩ := find_max_aux_spec G rest hrest g1 s1
    have heq' : find_max_group G (g1 :: rest) = some (some g, some s) := by
      show find_max_aux G (g1 :: rest) none none = _
      simp only [find_max_aux, hs1]
      exact heq
    rcases hcase with ⟨hg, hss⟩ | ⟨pre, post, hdec, hscg, hlt, hpre⟩
    · refine ⟨g, s, [], rest, heq', by rw [hg]; rfl, by rw [hg, hss]; exact hs1, ?_, by simp⟩
      intro g' hg' s' hsc
      rcases List.mem_cons.mp hg' with hh | hh
      · subst hh; rw [hs1] at hsc; have := Option.some.inj hsc; omega
      · exact hmax g' hh s' hsc
    · refine ⟨g, s, g1 :: pre, post, heq', by rw [hdec]; rfl, hscg, ?_, ?_⟩
      · intro g' hg' s' hsc
        rcases List.mem_cons.mp hg' with hh | hh
        · subst hh; rw [hs1] at hsc; have := Option.some.inj hsc; omega
        · exact hmax g' hh s' hsc
      · intro g' hg' s' hsc
        rcases List.mem_cons.mp hg' with hh | hh
        · subst hh; rw [hs1] at hsc; have := Option.some.inj hsc; omega
        · exact hpre g' hh s' hsc

/-- Witness for C3 at the concrete scenario with the two candidate
groups of the specification. -/
theorem claim_C3_select_best_witness :
    ∃ g s pre post,
      find_max_group specG [[0, 1, 2], [2, 3, 4]] = some (some g, some s) ∧
      [[0, 1, 2], [2, 3, 4]] = pre ++ g :: post ∧
      compute_group_score specG g = some s ∧
      (∀ g' ∈ [[0, 1, 2], [2, 3, 4]], ∀ s',
        compute_group_score specG g' = some s' → s' ≤ s) ∧
      (∀ g' ∈ pre, ∀ s', compute_group_score specG g' = some s' → s' < s) :=
  claim_C3_select_best specG [[0, 1, 2], [2, 3, 4]] (by decide) (by decide)

/-- C10: on candidates made of graph nodes, `find_max_group` returns one
of the input groups verbatim, paired with that group's own score, and on
the empty sequence it returns the `(None, None)` pair without failing. -/
theorem claim_C10_find_max (G : Graph) (groups : List (List Nat))
    (h : ∀ g ∈ groups, ∀ v ∈ g, v ∈ G.nodes) :
    (groups = [] → find_max_group G groups = some (none, none)) ∧
    (groups ≠ [] → ∃ g, g ∈ groups ∧
      find_max_group G groups = some (some g, compute_group_score G g)) := by
  constructor
  · intro he; subst he; rfl
  · intro hne
    match groups with
    | [] => exact absurd rfl hne
    | g1 :: rest =>
      obtain ⟨s1, hs1⟩ := compute_group_score_isSome G g1
        (h g1 (List.mem_cons_self g1 rest))
      have hrest : ∀ g ∈ rest, ∀ v ∈ g, v ∈ G.nodes :=
        fun g hg => h g (List.mem_cons_of_mem _ hg)
      obtain ⟨g, s, heq, _, hcase⟩ := find_max_aux_spec G rest hrest g1 s1
      have heq' : find_max_group G (g1 :: rest) = some (some g, some s) := by
        show find_max_aux G (g1 :: rest) none none = _
        simp only [find_max_aux, hs1]
        exact heq
      rcases hcase with ⟨hg, hss⟩ | ⟨pre, post, hdec, hscg, _, _⟩
      · refine ⟨g, by rw [hg]; exact List.mem_cons_self _ rest, ?_⟩
        rw [heq', hg, hs1, hss]
      · refine ⟨g, ?_, by rw [heq', hscg]⟩
        exact List.mem_cons_of_mem _ (hdec ▸ List.mem_append_right pre (List.mem_cons_self g post))

/-- Witness for C10 at the concrete scenario, including the empty input
case. -/
theorem claim_C10_find_max_witness :
    (find_max_group specG [] = some (none, none)) ∧
    ∃ g, g ∈ [[0, 1, 2], [2, 3, 4]] ∧
      find_max_group specG [[0, 1, 2], [2, 3, 4]] =
        some (some g, compute_group_score specG g) :=
  ⟨(claim_C10_find_max specG [] (by decide)).1 rfl,
   (claim_C10_find_max specG [[0, 1, 2], [2, 3, 4]] (by decide)).2 (by decide)⟩

/-- C1: on a group of nodes present in the graph the scorer returns the
sum of the members' node weights plus the sum of edge weights over the
member pairs joined by an edge (pairs without an edge contributing 0),
and on the concrete five-node scenario the groups A,B,C and C,D,E score
11 and 6, with `find_max_group` over exactly those two candidates
returning A,B,C with score 11. -/
theorem claim_C1_score (G : Graph) (group : List Nat)
    (h : ∀ v ∈ group, v ∈ G.nodes) :
    compute_group_score G group =
      some ((group.map G.weight).sum +
        ((combinations2 group).map
          (fun uv => if G.adj uv.1 uv.2 then G.edgeW uv.1 uv.2 else 0)).sum) ∧
    compute_group_score specG [0, 1, 2] = some 11 ∧
    compute_group_score specG [2, 3, 4] = some 6 ∧
    find_max_group specG [[0, 1, 2], [2, 3, 4]] = some (some [0, 1, 2], some 11) :=
  ⟨compute_group_score_of_mem G group h, by decide, by decide, by decide⟩

/-- Witness for C1 at the group A,B,C of the scenario graph. -/
theorem claim_C1_score_witness :
    compute_group_score specG [0, 1, 2] =
      some ((([0, 1, 2] : List Nat).map specG.weight).sum +
        ((combinations2 ([0, 1, 2] : List Nat)).map
          (fun uv => if specG.adj uv.1 uv.2 then specG.edgeW uv.1 uv.2 else 0)).sum) :=
  (claim_C1_score specG [0, 1, 2] (by decide)).1

/-- Decidable consecutive-adjacency check: every node of the list is
adjacent to its successor. -/
def chainAdj (adjB : Nat → Nat → Bool) : List Nat → Bool
  | [] => true
  | [_] => true
  | a :: b :: t => adjB a b && chainAdj adjB (b :: t)

/-- Bool chain check agrees with `List.Chain'`. -/
lemma chainAdj_iff (adjB : Nat → Nat → Bool) :
    ∀ p : List Nat, chainAdj adjB p = true ↔
      List.Chain' (fun a b => adjB a b = true) p := by
  intro p
  induction p with
  | nil => simp [chainAdj]
  | cons a t ih =>
    cases t with
    | nil => simp [chainAdj]
    | cons b t' =>
      rw [chainAdj, Bool.and_eq_true, List.chain'_cons, ih]

/-- Membership in the embedded neighbor list. -/
lemma mem_neighbors (nodes : List Nat) (adjB : Nat → Nat → Bool) (u v : Nat) :
    v ∈ neighbors nodes adjB u ↔ v ∈ nodes ∧ adjB u v = true := by
  simp [neighbors, List.mem_filter]

/-- Folding a step function that preserves a state predicate preserves
it globally. -/
lemma foldl_preserve {α : Type} {P : DfsState → Prop} (f : DfsState → α → DfsState)
    (l : List α) (hstep : ∀ st x, x ∈ l → P st → P (f st x)) :
    ∀ st, P st → P (l.foldl f st) := by
  induction l with
  | nil => intro st h; exact h
  | cons y ys ih =>
    intro st h
    exact ih (fun st' x hx => hstep st' x (List.mem_cons_of_mem _ hx))
      (f st y) (hstep st y (List.mem_cons_self y ys) h)

/-- If some element of the fold establishes the predicate no matter the
incoming state, and every step of the fold preserves it, the fold
establishes it. -/
lemma foldl_reach {α : Type} {P : DfsState → Prop} (f : DfsState → α → DfsState)
    (l : List α) (x : α) (hx : x ∈ l) (hhit : ∀ st, P (f st x))
    (hstep : ∀ st y, y ∈ l → P st → P (f st y)) :
    ∀ st, P (l.foldl f st) := by
  induction l with
  | nil => cases hx
  | cons y ys ih =>
    intro st
    rcases List.mem_cons.mp hx with hxy | hx'
    · subst hxy
      exact foldl_preserve f ys
        (fun st' z hz => hstep st' z (List.mem_cons_of_mem _ hz)) (f st x) (hhit st)
    · exact ih hx'
        (fun st' z hz => hstep st' z (List.mem_cons_of_mem _ hz)) (f st y)

/-- Folding a step function that leaves every state unchanged returns
the initial state. -/
lemma foldl_id {α β : Type} (f : β → α → β) (l : List α)
    (h : ∀ st x, x ∈ l → f st x = st) : ∀ st, l.foldl f st = st := by
  induction l with
  | nil => intro st; rfl
  | cons y ys ih =>
    intro st
    rw [List.foldl_cons, h st y (List.mem_cons_self y ys)]
    exact ih (fun st' x hx => h st' x (List.mem_cons_of_mem _ hx)) st

/-- Canonical form is a permutation of the path. -/
lemma canon_perm (p : List Nat) : List.Perm (canon p) p :=
  List.perm_insertionSort _ p

/-- Canonical form keeps the member set. -/
lemma canon_toFinset (p : List Nat) : (canon p).toFinset = p.toFinset :=
  List.toFinset_eq_of_perm _ _ (canon_perm p)

/-- Duplicate-free lists with equal member sets have equal canonical
forms. -/
lemma canon_eq_of_toFinset {p q : List Nat} (hp : p.Nodup) (hq : q.Nodup)
    (h : p.toFinset = q.toFinset) : canon p = canon q := by
  have hperm : List.Perm (canon p) (canon q) :=
    ((canon_perm p).trans (List.perm_of_nodup_nodup_toFinset_eq hp hq h)).trans
      (canon_perm q).symm
  exact List.eq_of_perm_of_sorted hperm
    (List.sorted_insertionSort _ p) (List.sorted_insertionSort _ q)

/-- Equal canonical forms give equal member sets. -/
lemma toFinset_eq_of_canon {p q : List Nat} (h : canon p = canon q) :
    p.toFinset = q.toFinset := by
  rw [← canon_toFinset p, ← canon_toFinset q, h]

/-- A recorded entry: a duplicate-free list of exactly `k` graph nodes
whose consecutive elements are adjacent. -/
def SimpleKPath (nodes : List Nat) (adjB : Nat → Nat → Bool) (k : Nat)
    (p : List Nat) : Prop :=
  p.length = k ∧ p.Nodup ∧ chainAdj adjB p = true ∧ ∀ v ∈ p, v ∈ nodes

/-- DFS state invariant: the seen set and the output list represent each
other, recorded canonical forms are pairwise distinct, and every
recorded path is a simple path of length `k`. -/
def DfsInv (nodes : List Nat) (adjB : Nat → Nat → Bool) (k : Nat)
    (st : DfsState) : Prop :=
  (∀ sp ∈ st.unique_paths, ∃ p ∈ st.all_paths, canon p = sp) ∧
  (∀ p ∈ st.all_paths, canon p ∈ st.unique_paths) ∧
  (st.all_paths.map canon).Nodup ∧
  (∀ p ∈ st.all_paths, SimpleKPath nodes adjB k p)

/-- The DFS only ever grows the seen set. -/
lemma dfs_seen_mono (nodes : List Nat) (adjB : Nat → Nat → Bool) (k : Nat) :
    ∀ fuel current path st sp, sp ∈ st.unique_paths →
      sp ∈ (dfs nodes adjB k fuel current path st).unique_paths := by
  intro fuel
  induction fuel with
  | zero => intro _ _ _ _ h; exact h
  | succ f ih =>
    intro current path st sp hsp
    simp only [dfs]
    by_cases hlen : path.length = k
    · simp only [if_pos hlen]
      by_cases hmem : canon path ∈ st.unique_paths
      · simpa [hmem] using hsp
      · simp only [if_neg hmem]
        exact List.mem_cons_of_mem _ hsp
    · simp only [if_neg hlen]
      refine @foldl_preserve _ (fun s => sp ∈ s.unique_paths) _ _ ?_ st hsp
      intro st' nb _ h'
      by_cases hnb : nb ∈ path
      · simpa [hnb] using h'
      · simpa [hnb] using ih nb (path ++ [nb]) st' sp h'

/-- Nodup of a list extended by one fresh element. -/
lemma nodup_append_singleton {p : List Nat} {x : Nat} (hp : p.Nodup)
    (hx : x ∉ p) : (p ++ [x]).Nodup := by
  refine List.Nodup.append hp (List.nodup_singleton x) ?_
  intro a ha hax
  rw [List.mem_singleton] at hax
  exact hx (hax ▸ ha)

/-- Chain extension by one neighbor of the last node. -/
lemma chainAdj_append_singleton {adjB : Nat → Nat → Bool} {p : List Nat}
    {c x : Nat} (hp : chainAdj adjB p = true) (hlast : p.getLast? = some c)
    (hadj : adjB c x = true) : chainAdj adjB (p ++ [x]) = true := by
  rw [chainAdj_iff] at hp ⊢
  rw [List.chain'_append]
  refine ⟨hp, List.chain'_singleton x, ?_⟩
  intro a ha y hy
  rw [hlast, Option.mem_some_iff] at ha
  simp only [List.head?_cons, Option.mem_some_iff] at hy
  rw [← ha, ← hy]
  exact hadj

/-- The DFS preserves the state invariant whenever the current path is a
duplicate-free adjacency chain of graph nodes ending at `current`. -/
lemma dfs_inv (nodes : List Nat) (adjB : Nat → Nat → Bool) (k : Nat) :
    ∀ fuel current path st, path.getLast? = some current → path.Nodup →
      chainAdj adjB path = true → (∀ v ∈ path, v ∈ nodes) →
      DfsInv nodes adjB k st →
      DfsInv nodes adjB k (dfs nodes adjB k fuel current path st) := by
  intro fuel
  induction fuel with
  | zero => intro _ _ _ _ _ _ _ h; exact h
  | succ f ih =>
    intro current path st hlast hnd hch hmem hinv
    obtain ⟨hrep, hsub, hcanNd, hsimple⟩ := hinv
    simp only [dfs]
    by_cases hlen : path.length = k
    · simp only [if_pos hlen]
      by_cases hseen : canon path ∈ st.unique_paths
      · simp only [if_pos hseen]
        exact ⟨hrep, hsub, hcanNd, hsimple⟩
      · simp only [if_neg hseen]
        refine ⟨?_, ?_, ?_, ?_⟩
        · intro sp hsp
          rcases List.mem_cons.mp hsp with hsp | hsp
          · exact ⟨path, List.mem_append_right _ (List.mem_singleton_self path),
              hsp.symm⟩
          · obtain ⟨p, hp, hcp⟩ := hrep sp hsp
            exact ⟨p, List.mem_append_left _ hp, hcp⟩
        · intro p hp
          rcases List.mem_append.mp hp with hp | hp
          · exact List.mem_cons_of_mem _ (hsub p hp)
          · rw [List.mem_singleton] at hp
            rw [hp]
            exact List.mem_cons_self _ _
        · rw [List.map_append, List.map_singleton]
          refine List.Nodup.append hcanNd (List.nodup_singleton _) ?_
          intro a ha hax
          rw [List.mem_singleton] at hax
          obtain ⟨p, hp, hcp⟩ := List.mem_map.mp ha
          apply hseen
          rw [← hax, ← hcp]
          exact hsub p hp
        · intro p hp
          rcases List.mem_append.mp hp with hp | hp
          · exact hsimple p hp
          · rw [List.mem_singleton] at hp
            rw [hp]
            exact ⟨hlen, hnd, hch, hmem⟩
    · simp only [if_neg hlen]
      refine @foldl_preserve _ (DfsInv nodes adjB k) _ _ ?_ st
        ⟨hrep, hsub, hcanNd, hsimple⟩
      intro st' nb hnb h'
      by_cases hin : nb ∈ path
      · simpa [hin] using h'
      · simp only [if_neg hin]
        obtain ⟨hnbNode, hnbAdj⟩ := (mem_neighbors nodes adjB current nb).mp hnb
        refine ih nb (path ++ [nb]) st' ?_ ?_ ?_ ?_ h'
        · exact List.getLast?_concat path
        · exact nodup_append_singleton hnd hin
        · exact chainAdj_append_singleton hch hlast hnbAdj
        · intro v hv
          rcases List.mem_append.mp hv with hv | hv
          · exact hmem v hv
          · rw [List.mem_singleton] at hv
            exact hv ▸ hnbNode

/-- Completeness of one DFS call: if the current path extends to a
simple length-`k` path and the fuel can still cover the missing steps,
the canonical form of that full path ends up in the seen set. -/
lemma dfs_complete (nodes : List Nat) (adjB : Nat → Nat → Bool) (k : Nat) :
    ∀ fuel path current ext st, path.getLast? = some current →
      (path ++ ext).Nodup → chainAdj adjB (path ++ ext) = true →
      (∀ v ∈ path ++ ext, v ∈ nodes) → (path ++ ext).length = k →
      k + 1 ≤ fuel + path.length →
      canon (path ++ ext) ∈
        (dfs nodes adjB k fuel current path st).unique_paths := by
  intro fuel
  induction fuel with
  | zero =>
    intro path current ext st _ _ _ _ hk hfuel
    rw [List.length_append] at hk
    omega
  | succ f ih =>
    intro path current ext st hlast hnd hch hmem hk hfuel
    simp only [dfs]
    cases ext with
    | nil =>
      rw [List.append_nil] at hnd hch hmem hk ⊢
      simp only [if_pos hk]
      by_cases hseen : canon path ∈ st.unique_paths
      · simp [hseen]
      · simp only [if_neg hseen]
        exact List.mem_cons_self _ _
    | cons e ext' =>
      have hlenlt : path.length < k := by
        rw [List.length_append, List.length_cons] at hk
        omega
      have hlen : path.length ≠ k := by omega
      simp only [if_neg hlen]
      have hadj : adjB current e = true := by
        rw [chainAdj_iff, List.chain'_append] at hch
        exact hch.2.2 current (by rw [hlast]; rfl) e rfl
      have heNode : e ∈ nodes :=
        hmem e (List.mem_append_right _ (List.mem_cons_self e ext'))
      have heNb : e ∈ neighbors nodes adjB current :=
        (mem_neighbors nodes adjB current e).mpr ⟨heNode, hadj⟩
      have heNotIn : e ∉ path := by
        intro hcon
        rw [List.nodup_append] at hnd
        exact hnd.2.2 hcon (List.mem_cons_self e ext')
      have hassoc : (path ++ [e]) ++ ext' = path ++ e :: ext' := by
        rw [List.append_assoc, List.singleton_append]
      refine @foldl_reach _
        (fun s => canon (path ++ e :: ext') ∈ s.unique_paths) _ _ e heNb ?_ ?_ st
      · intro st'
        simp only [if_neg heNotIn]
        have := ih (path ++ [e]) e ext' st' (List.getLast?_concat path)
          (by rw [hassoc]; exact hnd) (by rw [hassoc]; exact hch)
          (by rw [hassoc]; exact hmem) (by rw [hassoc]; exact hk)
          (by rw [List.length_append, List.length_singleton]; omega)
        rwa [hassoc] at this
      · intro st' y _ h'
        by_cases hy : y ∈ path
        · simpa [hy] using h'
        · simp only [if_neg hy]
          exact dfs_seen_mono nodes adjB k f y (path ++ [y]) st' _ h'

/-- Invariant holds after the whole enumeration loop. -/
lemma precompute_inv (G : Graph) (k : Nat) :
    DfsInv G.nodes G.adj k
      (G.nodes.foldl
        (fun st s => dfs G.nodes G.adj k (G.nodes.length + k + 1) s [s] st)
        ⟨[], []⟩) := by
  refine @foldl_preserve _ (DfsInv G.nodes G.adj k) _ _ ?_ ⟨[], []⟩ ?_
  · intro st s hs hinv
    refine dfs_inv G.nodes G.adj k _ s [s] st rfl (List.nodup_singleton s) rfl ?_ hinv
    intro v hv
    rw [List.mem_singleton] at hv
    exact hv ▸ hs
  · exact ⟨by simp, by simp, by simp, by simp⟩

/-- Every entry of the final library is a simple k-path, and the
canonical forms of the entries are pairwise distinct. -/
lemma precompute_sound (G : Graph) (k : Nat) :
    (∀ p ∈ precompute_unique_paths G k, SimpleKPath G.nodes G.adj k p) ∧
    ((precompute_unique_paths G k).map canon).Nodup := by
  obtain ⟨_, _, hnd, hsimple⟩ := precompute_inv G k
  exact ⟨hsimple, hnd⟩

/-- Every simple k-path's member set is represented in the library. -/
lemma precompute_complete (G : Graph) (k : Nat) (hk : 1 ≤ k) (q : List Nat)
    (hq : SimpleKPath G.nodes G.adj k q) :
    ∃ p ∈ precompute_unique_paths G k, canon p = canon q := by
  obtain ⟨hlen, hnd, hch, hmem⟩ := hq
  obtain ⟨s, qt, rfl⟩ : ∃ s t, q = s :: t := by
    cases q with
    | nil => rw [List.length_nil] at hlen; omega
    | cons s t => exact ⟨s, t, rfl⟩
  have hs : s ∈ G.nodes := hmem s (List.mem_cons_self s qt)
  have hseen : canon (s :: qt) ∈
      (G.nodes.foldl
        (fun st s => dfs G.nodes G.adj k (G.nodes.length + k + 1) s [s] st)
        ⟨[], []⟩).unique_paths := by
    refine @foldl_reach _
      (fun st => canon (s :: qt) ∈ st.unique_paths) _ _ s hs ?_ ?_ ⟨[], []⟩
    · intro st
      have := dfs_complete G.nodes G.adj k (G.nodes.length + k + 1) [s] s qt st
        rfl (by simpa using hnd) (by simpa using hch) (by simpa using hmem)
        (by simpa using hlen) (by simp; omega)
      simpa using this
    · intro st y _ h'
      exact dfs_seen_mono G.nodes G.adj k _ y [y] st _ h'
  obtain ⟨hrep, _, _, _⟩ := precompute_inv G k
  exact hrep _ hseen

/-- C2: for `k ≥ 1` the path library holds only duplicate-free lists of
exactly `k` pairwise-consecutively-adjacent graph nodes, no two entries
share a member set, and the member set of every simple `k`-path of the
graph appears (hence appears exactly once, whatever traversal order
found it first). -/
theorem claim_C2_enumeration (G : Graph) (k : Nat) (hk : 1 ≤ k) :
    (∀ p ∈ precompute_unique_paths G k,
      p.length = k ∧ p.Nodup ∧ chainAdj G.adj p = true ∧ ∀ v ∈ p, v ∈ G.nodes) ∧
    (∀ p ∈ precompute_unique_paths G k, ∀ q ∈ precompute_unique_paths G k,
      p ≠ q → p.toFinset ≠ q.toFinset) ∧
    (∀ q, q.length = k → q.Nodup → chainAdj G.adj q = true →
      (∀ v ∈ q, v ∈ G.nodes) →
      ∃ p ∈ precompute_unique_paths G k, p.toFinset = q.toFinset) := by
  obtain ⟨hsimple, hcanNd⟩ := precompute_sound G k
  refine ⟨hsimple, ?_, ?_⟩
  · intro p hp q hq hne hset
    obtain ⟨_, hpnd, _, _⟩ := hsimple p hp
    obtain ⟨_, hqnd, _, _⟩ := hsimple q hq
    exact hne (List.inj_on_of_nodup_map hcanNd hp hq
      (canon_eq_of_toFinset hpnd hqnd hset))
  · intro q hlen hnd hch hmem
    obtain ⟨p, hp, hcp⟩ := precompute_complete G k hk q ⟨hlen, hnd, hch, hmem⟩
    exact ⟨p, hp, toFinset_eq_of_canon hcp⟩

/-- Witness for C2 on the scenario graph with `k = 3`: the set
`{A, B, C}` is reachable by the simple path A-B-C and is found. -/
theorem claim_C2_enumeration_witness :
    ∃ p ∈ precompute_unique_paths specG 3,
      p.toFinset = ([0, 1, 2] : List Nat).toFinset :=
  (claim_C2_enumeration specG 3 (by decide)).2.2 [0, 1, 2]
    (by decide) (by decide) (by decide) (by decide)

/-- Once the path is already longer than the desired length the DFS can
never record anything: the length test can never become true again, so
the state passes through unchanged. -/
lemma dfs_id_of_lt (nodes : List Nat) (adjB : Nat → Nat → Bool) (k : Nat) :
    ∀ fuel current path st, k < path.length →
      dfs nodes adjB k fuel current path st = st := by
  intro fuel
  induction fuel with
  | zero => intro _ _ _ _; rfl
  | succ f ih =>
    intro current path st hcon
    have hlen : path.length ≠ k := by omega
    simp only [dfs, if_neg hlen]
    refine foldl_id _ _ ?_ st
    intro st' nb _
    by_cases hnb : nb ∈ path
    · simp [hnb]
    · simp only [if_neg hnb]
      exact ih nb (path ++ [nb]) st' (by rw [List.length_append]; omega)

/-- Membership in the first-occurrence deduplication. -/
lemma mem_dedupKeep {α : Type} [DecidableEq α] :
    ∀ (l seen : List α) (x : α), x ∈ dedupKeep l seen ↔ x ∈ l ∧ x ∉ seen := by
  intro l
  induction l with
  | nil => intro seen x; simp [dedupKeep]
  | cons y ys ih =>
    intro seen x
    by_cases hy : y ∈ seen
    · rw [dedupKeep, if_pos hy, ih]
      constructor
      · rintro ⟨h1, h2⟩; exact ⟨List.mem_cons_of_mem _ h1, h2⟩
      · rintro ⟨h1, h2⟩
        rcases List.mem_cons.mp h1 with rfl | h1
        · exact absurd hy h2
        · exact ⟨h1, h2⟩
    · rw [dedupKeep, if_neg hy]
      by_cases hxy : x = y
      · subst hxy
        simp [List.mem_cons, hy]
      · rw [List.mem_cons]
        constructor
        · rintro (rfl | h1)
          · exact absurd rfl hxy
          · obtain ⟨h1, h2⟩ := (ih (y :: seen) x).mp h1
            exact ⟨List.mem_cons_of_mem _ h1,
              fun hc => h2 (List.mem_cons_of_mem _ hc)⟩
        · rintro ⟨h1, h2⟩
          rcases List.mem_cons.mp h1 with rfl | h1
          · exact absurd rfl hxy
          · refine Or.inr ((ih (y :: seen) x).mpr ⟨h1, ?_⟩)
            intro hc
            rcases List.mem_cons.mp hc with rfl | hc
            · exact hxy rfl
            · exact h2 hc

/-- One DFS call with `k = 1` just records the start singleton if new. -/
lemma dfs_k1_eq (nodes : List Nat) (adjB : Nat → Nat → Bool) (f s : Nat)
    (st : DfsState) :
    dfs nodes adjB 1 (f+1) s [s] st =
      if [s] ∈ st.unique_paths then st
      else ⟨[s] :: st.unique_paths, st.all_paths ++ [[s]]⟩ := by
  simp only [dfs, List.length_singleton, if_pos rfl]
  rfl

/-- The whole `k = 1` loop appends exactly the fresh singletons, in
first-occurrence order. -/
lemma loop_k1 (nodes : List Nat) (adjB : Nat → Nat → Bool) (f : Nat) :
    ∀ (ns : List Nat) (u a : List (List Nat)) (seen : List Nat),
      (∀ s, [s] ∈ u ↔ s ∈ seen) →
      (ns.foldl (fun st s => dfs nodes adjB 1 (f+1) s [s] st)
        ⟨u, a⟩).all_paths
        = a ++ (dedupKeep ns seen).map (fun v => [v]) := by
  intro ns
  induction ns with
  | nil => intro u a seen _; simp [dedupKeep]
  | cons x ns ih =>
    intro u a seen h
    rw [List.foldl_cons]
    by_cases hx : x ∈ seen
    · have hxu : [x] ∈ u := (h x).mpr hx
      rw [dfs_k1_eq, if_pos hxu, ih u a seen h, dedupKeep, if_pos hx]
    · have hxu : [x] ∉ u := fun hc => hx ((h x).mp hc)
      rw [dfs_k1_eq, if_neg hxu,
        ih ([x] :: u) (a ++ [[x]]) (x :: seen) ?_, dedupKeep, if_neg hx]
      · rw [List.map_cons, List.append_assoc, List.singleton_append]
      · intro s
        rw [List.mem_cons, List.mem_cons, h s]
        constructor
        · rintro (h1 | h1)
          · exact Or.inl (by simpa using h1)
          · exact Or.inr h1
        · rintro (rfl | h1)
          · exact Or.inl rfl
          · exact Or.inr h1

/-- The `k = 1` path library is the singleton list of every node, in
first-occurrence order. -/
lemma precompute_k1 (G : Graph) :
    precompute_unique_paths G 1 = (dedupKeep G.nodes []).map (fun v => [v]) := by
  unfold precompute_unique_paths
  have := loop_k1 G.nodes G.adj (G.nodes.length + 1) G.nodes [] [] []
    (by intro s; simp)
  simpa using this

/-- C6 (amended): enumeration never fails for any `k`.  Non-positive
`k` (modelled as `k = 0`) yields an empty library, `k = 1` yields
exactly the singleton of every node, and `k` larger than the node count
yields an empty library. -/
theorem claim_C6_boundary (G : Graph) :
    precompute_unique_paths G 0 = [] ∧
    (∀ v, [v] ∈ precompute_unique_paths G 1 ↔ v ∈ G.nodes) ∧
    (∀ p ∈ precompute_unique_paths G 1, ∃ v, p = [v]) ∧
    ∀ k, G.nodes.length < k → precompute_unique_paths G k = [] := by
  refine ⟨?_, ?_, ?_, ?_⟩
  · unfold precompute_unique_paths
    have hid : List.foldl
        (fun st s => dfs G.nodes G.adj 0 (G.nodes.length + 0 + 1) s [s] st)
        (⟨[], []⟩ : DfsState) G.nodes = ⟨[], []⟩ :=
      foldl_id _ _
        (fun st x _ => dfs_id_of_lt G.nodes G.adj 0 _ x [x] st (by simp))
        ⟨[], []⟩
    rw [hid]
  · intro v
    rw [precompute_k1]
    simp only [List.mem_map]
    constructor
    · rintro ⟨w, hw, hwv⟩
      have hwv' : w = v := by simpa using hwv
      rw [← hwv']
      exact ((mem_dedupKeep G.nodes [] w).mp hw).1
    · intro hv
      exact ⟨v, (mem_dedupKeep G.nodes [] v).mpr ⟨hv, by simp⟩, rfl⟩
  · intro p hp
    rw [precompute_k1] at hp
    obtain ⟨v, _, hv⟩ := List.mem_map.mp hp
    exact ⟨v, hv.symm⟩
  · intro k hk
    rw [List.eq_nil_iff_forall_not_mem]
    intro p hp
    obtain ⟨hlen, hnd, _, hmem⟩ := (precompute_sound G k).1 p hp
    have hcard : p.toFinset.card = p.length := List.toFinset_card_of_nodup hnd
    have hsub : p.toFinset ⊆ G.nodes.toFinset := by
      intro x hx
      rw [List.mem_toFinset] at hx ⊢
      exact hmem x hx
    have h1 : p.toFinset.card ≤ G.nodes.toFinset.card := Finset.card_le_card hsub
    have h2 : G.nodes.toFinset.card ≤ G.nodes.length := G.nodes.toFinset_card_le
    omega

/-- Counterexample to C6 as stated: at `k = 0` the code returns an
empty library (a regular value), it does not fail. -/
theorem claim_C6_counterexample : precompute_unique_paths specG 0 = [] := by
  decide

/-- Witness for C6 at the unweighted scenario graph. -/
theorem claim_C6_boundary_witness :
    precompute_unique_paths specGUnweighted 0 = [] ∧
    ([2] ∈ precompute_unique_paths specGUnweighted 1 ↔
      (2 : Nat) ∈ specGUnweighted.nodes) ∧
    precompute_unique_paths specGUnweighted 6 = [] :=
  ⟨(claim_C6_boundary specGUnweighted).1,
   (claim_C6_boundary specGUnweighted).2.1 2,
   (claim_C6_boundary specGUnweighted).2.2.2 6 (by decide)⟩

/-- Pointwise-equal Boolean predicates count the same. -/
lemma countP_congr_mine {α : Type} (p q : α → Bool) :
    ∀ l : List α, (∀ a ∈ l, p a = q a) → l.countP p = l.countP q := by
  intro l
  induction l with
  | nil => intro _; rfl
  | cons y ys ih =>
    intro h
    rw [List.countP_cons, List.countP_cons, h y (List.mem_cons_self y ys),
      ih (fun a ha => h a (List.mem_cons_of_mem _ ha))]

/-- Occurrence count as a decidable-equality `countP`. -/
lemma count_eq_countP_decEq {α : Type} [DecidableEq α] [BEq α] [LawfulBEq α]
    (a : α) : ∀ l : List α, l.count a = l.countP (fun x => decide (x = a)) := by
  intro l
  induction l with
  | nil => rfl
  | cons y ys ih =>
    rw [List.count_cons, List.countP_cons, ih]
    by_cases h : y = a <;> simp [h]

/-- Duplicate-free occurrence count is a membership indicator. -/
lemma countP_dec_nodup {α : Type} [DecidableEq α] {l : List α} (hl : l.Nodup)
    (u : α) : l.countP (fun x => decide (x = u)) = if u ∈ l then 1 else 0 := by
  induction l with
  | nil => rfl
  | cons y ys ih =>
    obtain ⟨hy, hys⟩ := List.nodup_cons.mp hl
    rw [List.countP_cons, ih hys]
    by_cases h : y = u
    · subst h
      simp [hy]
    · have h' : u ≠ y := fun hc => h hc.symm
      simp [h, h']

/-- Sum distributes over a pointwise sum under `map`. -/
lemma sum_map_add {α : Type} (f g : α → Nat) :
    ∀ l : List α, (l.map (fun x => f x + g x)).sum = (l.map f).sum + (l.map g).sum := by
  intro l
  induction l with
  | nil => rfl
  | cons y ys ih => simp [ih]; omega

/-- A key indicator vanishes summed over keys avoiding it. -/
lemma sum_map_ite_zero (a : Nat) (b : Bool) :
    ∀ K : List Nat, a ∉ K →
      (K.map (fun k => if b && decide (a = k) then 1 else 0)).sum = 0 := by
  intro K
  induction K with
  | nil => intro _; rfl
  | cons y ys ih =>
    intro ha
    have hy : a ≠ y := fun hc => ha (hc ▸ List.mem_cons_self y ys)
    have hys : a ∉ ys := fun hc => ha (List.mem_cons_of_mem _ hc)
    rw [List.map_cons, List.sum_cons, ih hys]
    simp [hy]

/-- Summing a key indicator over a duplicate-free key list containing the
key yields the plain indicator. -/
lemma sum_map_ite_beq (a : Nat) (b : Bool) :
    ∀ K : List Nat, K.Nodup → a ∈ K →
      (K.map (fun k => if b && decide (a = k) then 1 else 0)).sum =
        if b then 1 else 0 := by
  intro K
  induction K with
  | nil => intro _ h; cases h
  | cons y ys ih =>
    intro hnd ha
    obtain ⟨hy, hys⟩ := List.nodup_cons.mp hnd
    rcases List.mem_cons.mp ha with rfl | ha'
    · rw [List.map_cons, List.sum_cons, sum_map_ite_zero a b ys hy]
      simp
    · have hay : a ≠ y := fun hc => hy (hc ▸ ha')
      rw [List.map_cons, List.sum_cons, ih hys ha']
      simp [hay]

/-- Partition identity: counting matching rows group by group over a
duplicate-free key list covering every row counts all matching rows. -/
lemma countP_partition (p : String) :
    ∀ (rs : Records) (K : List Nat), K.Nodup → (∀ r ∈ rs, r.1 ∈ K) →
      (K.map (fun k =>
        rs.countP (fun r => decide (r.2 = p) && decide (r.1 = k)))).sum
        = rs.countP (fun r => decide (r.2 = p)) := by
  intro rs
  induction rs with
  | nil =>
    intro K _ _
    rw [List.countP_nil]
    exact List.sum_eq_zero (by simp [List.countP_nil])
  | cons r rs ih =>
    intro K hK hmem
    have hr : r.1 ∈ K := hmem r (List.mem_cons_self r rs)
    have hmem' : ∀ x ∈ rs, x.1 ∈ K := fun x hx => hmem x (List.mem_cons_of_mem _ hx)
    simp only [List.countP_cons]
    rw [sum_map_add (fun k => rs.countP fun r => decide (r.2 = p) && decide (r.1 = k))
        (fun k => if decide (r.2 = p) && decide (r.1 = k) then 1 else 0) K,
      ih K hK hmem', sum_map_ite_beq r.1 (decide (r.2 = p)) K hK hr]

/-- Per-group member count of a player as a row count. -/
lemma groupMembers_countP (records : Records) (k : Nat) (p : String) :
    (groupMembers records k).countP (fun x => decide (x = p)) =
      records.countP (fun r => decide (r.2 = p) && decide (r.1 = k)) := by
  unfold groupMembers
  rw [List.countP_map, List.countP_filter]
  rfl

/-- First-occurrence deduplication is duplicate-free. -/
lemma dedupKeep_nodup {α : Type} [DecidableEq α] :
    ∀ (l seen : List α), (dedupKeep l seen).Nodup := by
  intro l
  induction l with
  | nil => intro _; exact List.nodup_nil
  | cons y ys ih =>
    intro seen
    by_cases hy : y ∈ seen
    · rw [dedupKeep, if_pos hy]; exact ih seen
    · rw [dedupKeep, if_neg hy]
      refine List.nodup_cons.mpr ⟨?_, ih (y :: seen)⟩
      intro hc
      exact ((mem_dedupKeep ys (y :: seen) y).mp hc).2 (List.mem_cons_self y seen)

/-- Every row's key is a group key. -/
lemma mem_groupKeys (records : Records) :
    ∀ r ∈ records, r.1 ∈ groupKeys records := by
  intro r hr
  exact (mem_dedupKeep _ _ _).mpr ⟨List.mem_map_of_mem Prod.fst hr, by simp⟩

/-- Summed membership indicators over keys count the matching keys. -/
lemma sum_ite_mem (q : Nat → Prop) [DecidablePred q] :
    ∀ K : List Nat,
      (K.map (fun k => if q k then 1 else 0)).sum =
        (K.filter (fun k => decide (q k))).length := by
  intro K
  induction K with
  | nil => rfl
  | cons y ys ih =>
    rw [List.map_cons, List.sum_cons, ih, List.filter_cons]
    by_cases h : q y
    · simp [h]
      omega
    · simp [h]

/-- C4 (amended): the built node weight is the raw row count naming the
entity; when no entity repeats inside one group's rows (true of a clean
roster table) that row count equals the number of distinct groups
containing the entity. -/
theorem claim_C4_node_weight (records : Records) (p : String)
    (hnd : ∀ k ∈ groupKeys records, (groupMembers records k).Nodup) :
    player_championships records p =
      ((groupKeys records).filter
        (fun k => decide (p ∈ groupMembers records k))).length := by
  unfold player_championships rowPlayers
  rw [count_eq_countP_decEq, List.countP_map]
  have hcomp : List.countP ((fun x => decide (x = p)) ∘ Prod.snd) records =
      List.countP (fun r => decide (r.2 = p)) records := rfl
  rw [hcomp]
  have hpart := countP_partition p records (groupKeys records)
    (dedupKeep_nodup _ _) (mem_groupKeys records)
  have hstep : ∀ k ∈ groupKeys records,
      records.countP (fun r => decide (r.2 = p) && decide (r.1 = k)) =
        if p ∈ groupMembers records k then 1 else 0 := by
    intro k hk
    rw [← groupMembers_countP, countP_dec_nodup (hnd k hk)]
  rw [show (records.countP fun r => decide (r.2 = p)) =
      ((groupKeys records).map (fun k =>
        records.countP (fun r => decide (r.2 = p) && decide (r.1 = k)))).sum
    from hpart.symm]
  rw [List.map_congr_left hstep, sum_ite_mem (fun k => p ∈ groupMembers records k)]

/-- Counterexample to C4 as stated: a player listed twice on one roster
gets node weight 2 although only one distinct group contains it. -/
theorem claim_C4_counterexample :
    player_championships [(0, "a"), (0, "a")] "a" = 2 ∧
    ((groupKeys [(0, "a"), (0, "a")]).filter
      (fun k => decide ("a" ∈ groupMembers [(0, "a"), (0, "a")] k))).length = 1 := by
  constructor <;> decide

/-- Witness for C4 on a duplicate-free two-roster input. -/
theorem claim_C4_node_weight_witness :
    player_championships [(0, "a"), (1, "a"), (1, "b")] "a" =
      ((groupKeys [(0, "a"), (1, "a"), (1, "b")]).filter
        (fun k => decide ("a" ∈ groupMembers [(0, "a"), (1, "a"), (1, "b")] k))).length :=
  claim_C4_node_weight [(0, "a"), (1, "a"), (1, "b")] "a" (by decide)

/-- Value of the pair fold: each matching pair adds one to the entry. -/
lemma add_edges_foldl_val (u v : String) :
    ∀ (L : List (String × String)) (ew : String → String → Nat),
      (L.foldl (fun e pq => bump e pq.1 pq.2) ew) u v =
        ew u v + L.countP
          (fun pq => decide ((u = pq.1 ∧ v = pq.2) ∨ (u = pq.2 ∧ v = pq.1))) := by
  intro L
  induction L with
  | nil => intro ew; simp
  | cons pq L ih =>
    intro ew
    rw [List.foldl_cons, ih, List.countP_cons]
    by_cases hc : (u = pq.1 ∧ v = pq.2) ∨ (u = pq.2 ∧ v = pq.1)
    · simp only [bump, if_pos hc]
      simp [hc]
      omega
    · simp only [bump, if_neg hc]
      simp [hc]

/-- Matching-pair count over all position pairs, distinct endpoints: the
product of the endpoint occurrence counts, whatever the list order. -/
lemma countP_comb2_ne (u v : String) (huv : u ≠ v) :
    ∀ L : List String,
      (combinations2 L).countP
        (fun pq => decide ((u = pq.1 ∧ v = pq.2) ∨ (u = pq.2 ∧ v = pq.1))) =
        L.countP (fun x => decide (x = u)) * L.countP (fun x => decide (x = v)) := by
  intro L
  induction L with
  | nil => rfl
  | cons x xs ih =>
    rw [show combinations2 (x :: xs) =
        (xs.map fun y => (x, y)) ++ combinations2 xs from rfl,
      List.countP_append, List.countP_map, ih, List.countP_cons, List.countP_cons]
    have huv' : v ≠ u := fun hc => huv hc.symm
    by_cases hux : u = x
    · subst hux
      have hco : ∀ y ∈ xs,
          ((fun pq : String × String =>
            decide ((u = pq.1 ∧ v = pq.2) ∨ (u = pq.2 ∧ v = pq.1))) ∘
              fun y => (u, y)) y = decide (y = v) := by
        intro y _
        by_cases h : y = v
        · simp [Function.comp_apply, h]
        · have h' : v ≠ y := fun hc => h hc.symm
          simp [Function.comp_apply, h, h', huv']
      rw [countP_congr_mine _ _ xs hco]
      simp [huv]
      ring
    · by_cases hvx : v = x
      · subst hvx
        have hco : ∀ y ∈ xs,
            ((fun pq : String × String =>
              decide ((u = pq.1 ∧ v = pq.2) ∨ (u = pq.2 ∧ v = pq.1))) ∘
                fun y => (v, y)) y = decide (y = u) := by
          intro y _
          by_cases h : y = u
          · simp [Function.comp_apply, h]
          · have h' : u ≠ y := fun hc => h hc.symm
            simp [Function.comp_apply, h, h', huv]
        rw [countP_congr_mine _ _ xs hco]
        simp [huv']
        ring
      · have hxu : x ≠ u := fun hc => hux hc.symm
        have hxv : x ≠ v := fun hc => hvx hc.symm
        have hco : ∀ y ∈ xs,
            ((fun pq : String × String =>
              decide ((u = pq.1 ∧ v = pq.2) ∨ (u = pq.2 ∧ v = pq.1))) ∘
                fun y => (x, y)) y = false := by
          intro y _
          simp [Function.comp_apply, hux, hvx]
        rw [countP_congr_mine _ _ xs hco]
        simp [hxu, hxv]

/-- Matching-pair count at a single endpoint: one per unordered position
pair among the occurrences, i.e. `count choose 2`. -/
lemma countP_comb2_self (u : String) :
    ∀ L : List String,
      (combinations2 L).countP
        (fun pq => decide ((u = pq.1 ∧ u = pq.2) ∨ (u = pq.2 ∧ u = pq.1))) =
        (L.countP (fun x => decide (x = u))).choose 2 := by
  intro L
  induction L with
  | nil => rfl
  | cons x xs ih =>
    rw [show combinations2 (x :: xs) =
        (xs.map fun y => (x, y)) ++ combinations2 xs from rfl,
      List.countP_append, List.countP_map, ih, List.countP_cons]
    by_cases hux : u = x
    · subst hux
      have hco : ∀ y ∈ xs,
          ((fun pq : String × String =>
            decide ((u = pq.1 ∧ u = pq.2) ∨ (u = pq.2 ∧ u = pq.1))) ∘
              fun y => (u, y)) y = decide (y = u) := by
        intro y _
        by_cases h : y = u
        · simp [Function.comp_apply, h]
        · have h' : u ≠ y := fun hc => h hc.symm
          simp [Function.comp_apply, h, h']
      rw [countP_congr_mine _ _ xs hco]
      simp
      rw [Nat.choose_succ_succ, Nat.choose_one_right]
    · have hxu : x ≠ u := fun hc => hux hc.symm
      have hco : ∀ y ∈ xs,
          ((fun pq : String × String =>
            decide ((u = pq.1 ∧ u = pq.2) ∨ (u = pq.2 ∧ u = pq.1))) ∘
              fun y => (x, y)) y = false := by
        intro y _
        simp [Function.comp_apply, hux]
      rw [countP_congr_mine _ _ xs hco]
      simp [hxu]

/-- Inserting into the embedded sort permutes. -/
lemma insertLe_perm (le : String → String → Bool) (x : String) :
    ∀ l : List String, List.Perm (insertLe le x l) (x :: l) := by
  intro l
  induction l with
  | nil => exact List.Perm.refl _
  | cons y ys ih =>
    rw [insertLe]
    by_cases h : le x y
    · rw [if_pos h]
    · rw [if_neg h]
      exact (ih.cons y).trans (List.Perm.swap x y ys)

/-- The embedded sort permutes its input, so occurrence counts are
unchanged by it. -/
lemma sortStr_perm : ∀ l : List String, List.Perm (sortStr l) l := by
  intro l
  induction l with
  | nil => exact List.Perm.refl _
  | cons x xs ih => exact (insertLe_perm _ x (sortStr xs)).trans (ih.cons x)

/-- Value of the whole edge-building fold as a sum of per-roster pair
counts. -/
lemma build_foldl_val (u v : String) (records : Records) :
    ∀ (K : List Nat) (e : String → String → Nat),
      (K.foldl (fun e k => add_group_edges e (groupMembers records k)) e) u v =
        e u v + (K.map (fun k =>
          (combinations2 (sortStr (groupMembers records k))).countP
            (fun pq => decide ((u = pq.1 ∧ v = pq.2) ∨ (u = pq.2 ∧ v = pq.1))))).sum := by
  intro K
  induction K with
  | nil => intro e; simp
  | cons k K ih =>
    intro e
    rw [List.foldl_cons, ih, List.map_cons, List.sum_cons]
    unfold add_group_edges
    rw [add_edges_foldl_val]
    omega

/-- Edge weight of the built graph as a sum of per-roster pair counts. -/
lemma build_edge_weight_val (u v : String) (records : Records) :
    build_edge_weight records u v =
      ((groupKeys records).map (fun k =>
        (combinations2 (sortStr (groupMembers records k))).countP
          (fun pq => decide ((u = pq.1 ∧ v = pq.2) ∨ (u = pq.2 ∧ v = pq.1))))).sum := by
  unfold build_edge_weight
  rw [build_foldl_val]
  simp

/-- C5 (amended): the edge loop pairs the raw member rows without
deduplication, so in general a repeated member self-pairs and inflates
weights; but whenever every group's member rows are duplicate-free the
built graph has no self-loop and the weight stored for a distinct pair
equals the number of distinct groups in which both endpoints occur. -/
theorem claim_C5_edge_weight (records : Records)
    (hnd : ∀ k ∈ groupKeys records, (groupMembers records k).Nodup) :
    (∀ u, build_edge_weight records u u = 0) ∧
    (∀ u v, u ≠ v → build_edge_weight records u v =
      ((groupKeys records).filter (fun k =>
        decide (u ∈ groupMembers records k ∧
          v ∈ groupMembers records k))).length) := by
  constructor
  · intro u
    rw [build_edge_weight_val]
    refine List.sum_eq_zero ?_
    intro x hx
    obtain ⟨k, hk, hkx⟩ := List.mem_map.mp hx
    rw [← hkx, countP_comb2_self, (sortStr_perm _).countP_eq,
      countP_dec_nodup (hnd k hk)]
    by_cases h : u ∈ groupMembers records k <;> simp [h, Nat.choose]
  · intro u v huv
    rw [build_edge_weight_val]
    have hterm : ∀ k ∈ groupKeys records,
        (combinations2 (sortStr (groupMembers records k))).countP
          (fun pq => decide ((u = pq.1 ∧ v = pq.2) ∨ (u = pq.2 ∧ v = pq.1))) =
          if u ∈ groupMembers records k ∧ v ∈ groupMembers records k
          then 1 else 0 := by
      intro k hk
      rw [countP_comb2_ne u v huv, (sortStr_perm _).countP_eq,
        (sortStr_perm _).countP_eq, countP_dec_nodup (hnd k hk),
        countP_dec_nodup (hnd k hk)]
      by_cases h1 : u ∈ groupMembers records k <;>
        by_cases h2 : v ∈ groupMembers records k <;> simp [h1, h2]
    rw [List.map_congr_left hterm,
      sum_ite_mem (fun k => u ∈ groupMembers records k ∧ v ∈ groupMembers records k)]

/-- Counterexample to C5 as stated: a member listed twice in one roster
creates a self-loop of weight 1 and double-counts the pair with a
teammate (weight 2 from one single group). -/
theorem claim_C5_counterexample :
    build_edge_weight [(0, "a"), (0, "a")] "a" "a" = 1 ∧
    build_edge_weight [(0, "a"), (0, "a"), (0, "b")] "a" "b" = 2 := by
  constructor <;> decide

/-- Witness for C5 on a duplicate-free two-roster input. -/
theorem claim_C5_edge_weight_witness :
    build_edge_weight [(0, "a"), (0, "b"), (1, "a"), (1, "b")] "a" "a" = 0 ∧
    build_edge_weight [(0, "a"), (0, "b"), (1, "a"), (1, "b")] "a" "b" =
      ((groupKeys [(0, "a"), (0, "b"), (1, "a"), (1, "b")]).filter (fun k =>
        decide ("a" ∈ groupMembers [(0, "a"), (0, "b"), (1, "a"), (1, "b")] k ∧
          "b" ∈ groupMembers [(0, "a"), (0, "b"), (1, "a"), (1, "b")] k))).length :=
  ⟨(claim_C5_edge_weight [(0, "a"), (0, "b"), (1, "a"), (1, "b")] (by decide)).1 "a",
   (claim_C5_edge_weight [(0, "a"), (0, "b"), (1, "a"), (1, "b")] (by decide)).2
     "a" "b" (by decide)⟩

/-- Lists of at most one element give no pairs. -/
lemma comb2_nil_of_short {α : Type} :
    ∀ l : List α, l.length ≤ 1 → combinations2 l = [] := by
  intro l h
  match l with
  | [] => rfl
  | [x] => rfl
  | x :: y :: t => simp [List.length_cons] at h

/-- C7 (amended): graph construction is total — it never raises, and an
empty member name is an ordinary node identity like any other; the node
set is exactly the set of names occurring in the records, and when every
group has at most one member row no edge is created at all. -/
theorem claim_C7_construction_total (records : Records) :
    (∀ p, p ∈ builderNodes records ↔ ∃ k, (k, p) ∈ records) ∧
    ((∀ k ∈ groupKeys records, (groupMembers records k).length ≤ 1) →
      ∀ u v, build_edge_weight records u v = 0) := by
  constructor
  · intro p
    unfold builderNodes rowPlayers
    rw [mem_dedupKeep]
    constructor
    · rintro ⟨hmem, _⟩
      obtain ⟨r, hr, hrp⟩ := List.mem_map.mp hmem
      obtain ⟨k', p'⟩ := r
      exact ⟨k', by rw [show p' = p from hrp] at hr; exact hr⟩
    · rintro ⟨k, hk⟩
      exact ⟨List.mem_map.mpr ⟨(k, p), hk, rfl⟩, by simp⟩
  · intro hshort u v
    rw [build_edge_weight_val]
    refine List.sum_eq_zero ?_
    intro x hx
    obtain ⟨k, hk, hkx⟩ := List.mem_map.mp hx
    have h1 : (sortStr (groupMembers records k)).length ≤ 1 := by
      rw [(sortStr_perm _).length_eq]
      exact hshort k hk
    rw [← hkx, comb2_nil_of_short _ h1, List.countP_nil]

/-- Counterexample to C7 as stated: on a record with an empty member
name the construction succeeds (the empty string becomes a node of
weight 1), it does not fail. -/
theorem claim_C7_counterexample :
    builderNodes [(0, "")] = [""] ∧ player_championships [(0, "")] "" = 1 := by
  constructor <;> decide

/-- Witness for C7 at the single-record input with an empty name. -/
theorem claim_C7_construction_total_witness :
    ("" ∈ builderNodes [(0, "")] ↔ ∃ k, (k, "") ∈ ([(0, "")] : Records)) ∧
    build_edge_weight [(0, "")] "" "x" = 0 :=
  ⟨(claim_C7_construction_total [(0, "")]).1 "",
   (claim_C7_construction_total [(0, "")]).2 (by decide) "" "x"⟩
